import Mathlib

/-!
Verification of the interval-encoded boolean mask (`ArrayIntervall`) from
`paderbox/array/intervall/core.py`.

The mask stores half-open integer intervals `(start, end)` over a domain of
known or unknown length.  Python strings are embedded as `List Char`; machine
integers are `Nat` (all endpoints are non-negative); fallible operations
return `Except Err`.  The cython helpers (`cy_parse_item`, `cy_intersection`,
`cy_non_intersection`, `cy_str_to_intervalls`) are not part of the sources,
so they are modelled from the specification; every definition carrying a
`Modelled from the spec:` doc comment is of that kind.  Everything else is a
direct translation of `core.py`.
-/

namespace Paderbox

/-- Error kinds of the component (spec §7).  `wrapped` models the generic
exception that `ArrayIntervall_from_str` raises around a parse failure,
`assertionError` a failed `assert`, `indexError` an out-of-bounds element
access inside the dense constructor. -/
inductive Err where
  | parseError (tok : List Char)
  | indexOutOfRange (i : Int) (dl : Option Nat)
  | unknownDomainLength
  | unsupportedStep
  | shapeMismatch (a b : Option Nat)
  | valueError (v : Nat)
  | assertionError
  | indexError
  | wrapped (s : List Char)
deriving DecidableEq, Repr

/-- The mask state: `shape` is `None` or a 1-tuple `(n,)` in Python, here an
`Option Nat`; `_intervals` is the raw accumulated interval list; the flag
`_intervals_normalized` mirrors the lazy-normalization cache bit. -/
structure ArrayIntervall where
  shape : Option Nat
  _intervals : List (Nat × Nat) := []
  _intervals_normalized : Bool := true
deriving DecidableEq, Repr

/-- `zeros(shape)` — empty mask (core.py:96). -/
def zeros (shape : Option Nat) : ArrayIntervall := { shape := shape }

/-- The `intervals` property setter (core.py:238): stores the list and marks
the mask as not normalized. -/
def setIntervals (m : ArrayIntervall) (l : List (Nat × Nat)) : ArrayIntervall :=
  { m with _intervals := l, _intervals_normalized := false }

/-- Python tuple comparison used by `sorted` in `_normalize`: lexicographic
order on `(start, end)` pairs. -/
def pairLe (a b : Nat × Nat) : Bool :=
  decide (a.1 < b.1 ∨ (a.1 = b.1 ∧ a.2 ≤ b.2))

/-- The merge scan of `_normalize` (core.py:260-274): repeatedly absorb the
next interval into the current one while its start is `≤` the current end. -/
def mergeAdj : List (Nat × Nat) → List (Nat × Nat)
  | [] => []
  | [p] => [p]
  | (s, e) :: (s2, e2) :: rest =>
    if s2 ≤ e then mergeAdj ((s, max e e2) :: rest)
    else (s, e) :: mergeAdj ((s2, e2) :: rest)
termination_by l => l.length
decreasing_by
  · simp
  · simp

/-- `sorted(intervals)` followed by dropping degenerate pairs
(core.py:259). -/
def sortDrop (l : List (Nat × Nat)) : List (Nat × Nat) :=
  (l.mergeSort pairLe).filter (fun p => p.1 < p.2)

/-- `ArrayIntervall._normalize` (core.py:243-275). -/
def _normalize (l : List (Nat × Nat)) : List (Nat × Nat) :=
  mergeAdj (sortDrop l)

/-- The state change performed by the `normalized_intervals` property
(core.py:227-232): normalize and cache unless already marked normalized. -/
def touch (m : ArrayIntervall) : ArrayIntervall :=
  if m._intervals_normalized then m
  else { m with _intervals := _normalize m._intervals, _intervals_normalized := true }

/-- The value returned by the `normalized_intervals` property. -/
def normalized_intervals (m : ArrayIntervall) : List (Nat × Nat) :=
  (touch m)._intervals

/-- Modelled from the spec: `cy_intersection` (§4.2, not in the sources) —
sub-intervals overlapping the query `[qs,qe)`, each clipped to it. -/
def cy_intersection (q : Nat × Nat) (l : List (Nat × Nat)) : List (Nat × Nat) :=
  l.filterMap (fun p =>
    if max p.1 q.1 < min p.2 q.2 then some (max p.1 q.1, min p.2 q.2) else none)

/-- Modelled from the spec: `cy_non_intersection` (§4.3, not in the
sources) — remove the portion inside `[qs,qe)` from every interval,
splitting a straddling interval into at most two pieces. -/
def cy_non_intersection (q : Nat × Nat) (l : List (Nat × Nat)) : List (Nat × Nat) :=
  l.flatMap (fun p =>
    (if p.1 < min p.2 q.1 then [(p.1, min p.2 q.1)] else []) ++
    (if max p.1 q.2 < p.2 then [(max p.1 q.2, p.2)] else []))

/-- Items accepted by `__getitem__`/`__setitem__`: a scalar index or a slice
(with optional start/stop/step). -/
inductive Item where
  | idx (i : Int)
  | sl (start stop step : Option Nat)
deriving DecidableEq, Repr

/-- Modelled from the spec: `cy_parse_item` (§4.4, not in the sources).  A
scalar index `i` resolves to `(i, i+1)` and fails with `IndexOutOfRange` for
`i < 0` or, when the domain length is known, `i ≥ domain_length`; a slice
resolves with default start `0` and stop `domain_length` (failing with
`UnknownDomainLength` when the stop is open and the length unknown); a step
other than `1` fails with `UnsupportedStep`. -/
def cy_parse_item (item : Item) (shape : Option Nat) : Except Err (Nat × Nat) :=
  match item with
  | .idx i =>
    if i < 0 then .error (.indexOutOfRange i shape)
    else
      match shape with
      | some n => if n ≤ i.toNat then .error (.indexOutOfRange i shape)
                  else .ok (i.toNat, i.toNat + 1)
      | none => .ok (i.toNat, i.toNat + 1)
  | .sl st sp step =>
    if step = none ∨ step = some 1 then
      match sp with
      | some e => .ok (st.getD 0, e)
      | none =>
        match shape with
        | some n => .ok (st.getD 0, n)
        | none => .error .unknownDomainLength
    else .error .unsupportedStep

/-- `arr[a:b] = True` on a dense boolean buffer (the fill loop of
`__getitem__`, core.py:385-386). -/
def fillRange (arr : List Bool) (a b : Nat) : List Bool :=
  arr.mapIdx (fun j v => if a ≤ j ∧ j < b then true else v)

/-- The dense buffer materialized by `__getitem__` (core.py:383-388):
`np.zeros(stop-start)` then fill each clipped interval. -/
def denseOf (start stop : Nat) (ivs : List (Nat × Nat)) : List Bool :=
  ivs.foldl (fun arr p => fillRange arr (p.1 - start) (p.2 - start))
    (List.replicate (stop - start) false)

/-- Logical membership: index `i` lies inside some stored interval. -/
def coveredB (i : Nat) (l : List (Nat × Nat)) : Bool :=
  l.any (fun p => p.1 ≤ i && i < p.2)

/-- The `np.where(diff > 0)` part of `ArrayIntervall.__init__` (core.py:180-183):
positions `i+1` with `a[i+1] ∧ ¬a[i]`. -/
def risingCore (a : List Bool) : List Nat :=
  (List.range (a.length - 1)).filterMap (fun i =>
    if a.getD (i + 1) false && !(a.getD i false) then some (i + 1) else none)

/-- The `np.where(diff < 0)` part (core.py:180-183): positions `i+1` with
`a[i] ∧ ¬a[i+1]`. -/
def fallingCore (a : List Bool) : List Nat :=
  (List.range (a.length - 1)).filterMap (fun i =>
    if a.getD i false && !(a.getD (i + 1) false) then some (i + 1) else none)

/-- Rising-edge positions of `ArrayIntervall.__init__` (core.py:180-186):
`0` is prepended when `a[0]` holds. -/
def risingIdx (a : List Bool) : List Nat :=
  (if a.getD 0 false then [0] else []) ++ risingCore a

/-- Falling-edge positions of `ArrayIntervall.__init__` (core.py:180-189):
`len a` is appended when the last element holds. -/
def fallingIdx (a : List Bool) : List Nat :=
  fallingCore a ++ (if a.getLast? = some true then [a.length] else [])

/-- `ArrayIntervall.__init__` (core.py:159-196) on a dense boolean sequence:
fails on the empty input (the code reads `array[0]`), otherwise zips rising
and falling edges and appends each `(start, stop)` run via `self[start:stop]
= 1`, which leaves exactly `zip rising falling` as the raw interval list and
clears the normalized flag iff at least one run was appended. -/
def fromDense (a : List Bool) : Except Err ArrayIntervall :=
  if a.isEmpty then .error .indexError
  else
    .ok { shape := some a.length,
          _intervals := (risingIdx a).zip (fallingIdx a),
          _intervals_normalized := ((risingIdx a).zip (fallingIdx a)).isEmpty }

/-- Values accepted by `__setitem__`: a scalar (Python `0`/`1`/other) or a
dense boolean pattern. -/
inductive SetValue where
  | scalar (v : Nat)
  | dense (pat : List Bool)
deriving DecidableEq, Repr

/-- `ArrayIntervall.__setitem__` (core.py:306-364).  The returned state is
the mask after the call; on an error the state at the raise is returned —
in the source every `self.intervals = …` assignment is the final action of
its branch, after all checks. -/
def setitemM (item : Item) (value : SetValue) (m : ArrayIntervall) :
    Except Err Unit × ArrayIntervall :=
  match cy_parse_item item m.shape with
  | .error e => (.error e, m)
  | .ok (start, stop) =>
    match value with
    | .scalar v =>
      if v = 1 then (.ok (), setIntervals m (m._intervals ++ [(start, stop)]))
      else if v = 0 then
        (.ok (), setIntervals m (cy_non_intersection (start, stop) m._intervals))
      else (.error (.valueError v), m)
    | .dense pat =>
      if pat.length = stop - start then
        match fromDense pat with
        | .error e => (.error e, m)
        | .ok ai =>
          (.ok (), setIntervals m
            (cy_non_intersection (start, stop) m._intervals ++
              ai._intervals.map (fun p => (p.1 + start, p.2 + start))))
      else (.error .assertionError, m)

/-- `ArrayIntervall.__getitem__` (core.py:366-388).  Reading triggers the
`normalized_intervals` cache, so the state after the call is `touch m`. -/
def getitemM (item : Item) (m : ArrayIntervall) :
    Except Err (List Bool) × ArrayIntervall :=
  match cy_parse_item item m.shape with
  | .error e => (.error e, m)
  | .ok (start, stop) =>
    (.ok (denseOf start stop (cy_intersection (start, stop) (normalized_intervals m))),
     touch m)

/-- `ArrayIntervall.__or__` (core.py:390-397): assert equal shapes, then a
fresh mask holding the concatenation of both raw interval lists. -/
def unionE (a b : ArrayIntervall) : Except Err ArrayIntervall :=
  if b.shape = a.shape then
    .ok (setIntervals (zeros a.shape) (a._intervals ++ b._intervals))
  else .error (.shapeMismatch a.shape b.shape)

/-- `ArrayIntervall.__len__` (core.py:224-225): `self.shape[0]`; subscripting
a `None` shape fails (the spec's `UnknownDomainLength`). -/
def lenE (m : ArrayIntervall) : Except Err Nat :=
  match m.shape with
  | some n => .ok n
  | none => .error .unknownDomainLength

/-- Decimal digit character, `chr(48 + d)`. -/
def dChar (d : Nat) : Char := Char.ofNat (48 + d)

/-- Decimal rendering of a natural number, as Python `str(n)` produces. -/
def natDigits (n : Nat) : List Char :=
  if n < 10 then [dChar n]
  else natDigits (n / 10) ++ [dChar (n % 10)]
termination_by n
decreasing_by exact Nat.div_lt_self (by omega) (by omega)

/-- The `f-string` token of `_intervals_as_str` (core.py:283). -/
def tokenOf (p : Nat × Nat) : List Char :=
  natDigits p.1 ++ ':' :: natDigits p.2

/-- `', '.join(...)` over the interval tokens (core.py:279-286). -/
def renderIntervals (l : List (Nat × Nat)) : List Char :=
  List.intercalate [',', ' '] (l.map tokenOf)

/-- `ArrayIntervall._intervals_as_str` (core.py:277-286): render the
normalized intervals. -/
def _intervals_as_str (m : ArrayIntervall) : List Char :=
  renderIntervals (normalized_intervals m)

/-- Decimal digit test. -/
def isDigitCh (c : Char) : Bool := 48 ≤ c.toNat && c.toNat ≤ 57

/-- Value of a digit character. -/
def digitVal (c : Char) : Nat := c.toNat - 48

/-- Decimal decoding of a digit string. -/
def decodeDigits (l : List Char) : Nat :=
  l.foldl (fun n c => n * 10 + digitVal c) 0

/-- Parse a non-empty all-digit string. -/
def parseNatChars (l : List Char) : Option Nat :=
  if !l.isEmpty && l.all isDigitCh then some (decodeDigits l) else none

/-- Strip space characters from both ends. -/
def stripSpaces (l : List Char) : List Char :=
  ((l.dropWhile (fun c => c = ' ')).reverse.dropWhile (fun c => c = ' ')).reverse

/-- Parse one `start:end` token. -/
def parseToken (tok : List Char) : Except Err (Nat × Nat) :=
  match tok.splitOn ':' with
  | [a, b] =>
    match parseNatChars a, parseNatChars b with
    | some s, some e => .ok (s, e)
    | _, _ => .error (.parseError tok)
  | _ => .error (.parseError tok)

/-- Parse the comma-split chunks: empty chunks (trailing comma) are skipped,
malformed ones fail with `ParseError`. -/
def parseChunks : List (List Char) → Except Err (List (Nat × Nat))
  | [] => .ok []
  | ch :: cs =>
    let t := stripSpaces ch
    if t.isEmpty then parseChunks cs
    else
      match parseToken t, parseChunks cs with
      | .ok p, .ok r => .ok (p :: r)
      | .error e, _ => .error e
      | .ok _, .error e => .error e

/-- Modelled from the spec: `cy_str_to_intervalls` (§4.5 `from_text`, not in
the sources) — parse a comma-separated list of `start:end` tokens, tolerant
of surrounding whitespace and of a trailing comma. -/
def cy_str_to_intervalls (text : List Char) : Except Err (List (Nat × Nat)) :=
  parseChunks (text.splitOn ',')

/-- `ArrayIntervall.add_intervals_from_str` (core.py:291-292): append the
parsed pairs through the `intervals` setter. -/
def add_intervals_from_str (m : ArrayIntervall) (s : List Char) :
    Except Err ArrayIntervall :=
  match cy_str_to_intervalls s with
  | .ok ivs => .ok (setIntervals m (m._intervals ++ ivs))
  | .error e => .error e

/-- `ArrayIntervall_from_str` (core.py:12-35): empty text gives the empty
mask; otherwise a comma is appended when none is present and the parsed
pairs are added; a parse failure is re-raised wrapped around the text. -/
def ArrayIntervall_from_str (string : List Char) (shape : Option Nat) :
    Except Err ArrayIntervall :=
  let ai := zeros shape
  if string.isEmpty then .ok ai
  else
    let s2 := if string.contains ',' then string else string ++ [',']
    match add_intervals_from_str ai s2 with
    | .ok ai2 => .ok ai2
    | .error _ => .error (.wrapped s2)

/-- Rendering of the shape for `__repr__`: `None` or `(n,)`. -/
def shapeChars : Option Nat → List Char
  | none => ['N', 'o', 'n', 'e']
  | some n => '(' :: natDigits n ++ [',', ')']

/-- `ArrayIntervall.__repr__` (core.py:288-289). -/
def reprChars (m : ArrayIntervall) : List Char :=
  ("ArrayIntervall(\"").toList ++ _intervals_as_str m ++
    ("\", shape=").toList ++ shapeChars m.shape ++ [')']

/-- Mask states reachable by the operation sequences of the specification
(construction via `zeros`/`from_dense`/`from_text`, scalar and dense
assignment, union, interleaved reads), paired with the dense boolean model
(a total function on indices) that the same operation sequence produces on a
materialized boolean array of the same domain. -/
inductive Reaches : ArrayIntervall → (Nat → Bool) → Prop where
  | init_zeros (dl : Option Nat) : Reaches (zeros dl) (fun _ => false)
  | init_dense (d : List Bool) (m : ArrayIntervall) :
      fromDense d = .ok m → Reaches m (fun i => d.getD i false)
  | init_text (s : List Char) (dl : Option Nat) (ivs : List (Nat × Nat))
      (m : ArrayIntervall) :
      ArrayIntervall_from_str s dl = .ok m →
      cy_str_to_intervalls (if s.contains ',' then s else s ++ [',']) = .ok ivs →
      Reaches m (fun i => coveredB i ivs)
  | step_set_true (m : ArrayIntervall) (f : Nat → Bool) (it : Item) (s e : Nat)
      (m2 : ArrayIntervall) :
      Reaches m f → cy_parse_item it m.shape = .ok (s, e) →
      setitemM it (.scalar 1) m = (.ok (), m2) →
      Reaches m2 (fun i => if s ≤ i ∧ i < e then true else f i)
  | step_set_false (m : ArrayIntervall) (f : Nat → Bool) (it : Item) (s e : Nat)
      (m2 : ArrayIntervall) :
      Reaches m f → cy_parse_item it m.shape = .ok (s, e) →
      setitemM it (.scalar 0) m = (.ok (), m2) →
      Reaches m2 (fun i => if s ≤ i ∧ i < e then false else f i)
  | step_set_dense (m : ArrayIntervall) (f : Nat → Bool) (it : Item) (s e : Nat)
      (pat : List Bool) (m2 : ArrayIntervall) :
      Reaches m f → cy_parse_item it m.shape = .ok (s, e) →
      setitemM it (.dense pat) m = (.ok (), m2) →
      Reaches m2 (fun i => if s ≤ i ∧ i < e then pat.getD (i - s) false else f i)
  | step_union (a : ArrayIntervall) (fa : Nat → Bool) (b : ArrayIntervall)
      (fb : Nat → Bool) (m2 : ArrayIntervall) :
      Reaches a fa → Reaches b fb → unionE a b = .ok m2 →
      Reaches m2 (fun i => fa i || fb i)
  | step_get (m : ArrayIntervall) (f : Nat → Bool) (it : Item)
      (r : Except Err (List Bool)) (m2 : ArrayIntervall) :
      Reaches m f → getitemM it m = (r, m2) → Reaches m2 f

/-- Canonical interval lists: pairwise "end before next start" in order, and
every interval proper. -/
def Canon (l : List (Nat × Nat)) : Prop :=
  List.Chain' (fun a b => a.2 < b.1) l ∧ ∀ p ∈ l, p.1 < p.2

/-- Observable equivalence of two masks: same shape and the same logical
boolean value at every index. -/
def ObsEq (a b : ArrayIntervall) : Prop :=
  a.shape = b.shape ∧ ∀ i, coveredB i a._intervals = coveredB i b._intervals

/-!  ## Theorems  -/

theorem coveredB_nil (i : Nat) : coveredB i [] = false := rfl

theorem coveredB_cons (i : Nat) (p : Nat × Nat) (l : List (Nat × Nat)) :
    coveredB i (p :: l) = ((decide (p.1 ≤ i) && decide (i < p.2)) || coveredB i l) := by
  simp [coveredB]

theorem coveredB_append (i : Nat) (l1 l2 : List (Nat × Nat)) :
    coveredB i (l1 ++ l2) = (coveredB i l1 || coveredB i l2) := by
  simp [coveredB, List.any_append]

theorem coveredB_eq_true_iff (i : Nat) (l : List (Nat × Nat)) :
    coveredB i l = true ↔ ∃ p ∈ l, p.1 ≤ i ∧ i < p.2 := by
  simp [coveredB]

theorem coveredB_of_perm {l1 l2 : List (Nat × Nat)} (h : l1.Perm l2) (i : Nat) :
    coveredB i l1 = coveredB i l2 := by
  rw [Bool.eq_iff_iff, coveredB_eq_true_iff, coveredB_eq_true_iff]
  constructor
  · rintro ⟨p, hp, h2⟩; exact ⟨p, h.mem_iff.mp hp, h2⟩
  · rintro ⟨p, hp, h2⟩; exact ⟨p, h.mem_iff.mpr hp, h2⟩

theorem mem_cy_intersection {q : Nat × Nat} {l : List (Nat × Nat)} {p : Nat × Nat} :
    p ∈ cy_intersection q l ↔
      ∃ p0 ∈ l, max p0.1 q.1 < min p0.2 q.2 ∧ p = (max p0.1 q.1, min p0.2 q.2) := by
  simp only [cy_intersection, List.mem_filterMap]
  constructor
  · rintro ⟨p0, hp0, hsome⟩
    by_cases hc : max p0.1 q.1 < min p0.2 q.2
    · simp only [hc, if_true, Option.some.injEq] at hsome
      exact ⟨p0, hp0, hc, hsome.symm⟩
    · simp [hc] at hsome
  · rintro ⟨p0, hp0, hc, hp⟩
    exact ⟨p0, hp0, by simp [hc, hp]⟩

theorem coveredB_cy_intersection (q : Nat × Nat) (l : List (Nat × Nat)) (i : Nat) :
    coveredB i (cy_intersection q l) =
      (coveredB i l && (decide (q.1 ≤ i) && decide (i < q.2))) := by
  rw [Bool.eq_iff_iff]
  simp only [Bool.and_eq_true, decide_eq_true_eq, coveredB_eq_true_iff]
  constructor
  · rintro ⟨p, hp, hle, hlt⟩
    rcases mem_cy_intersection.mp hp with ⟨p0, hp0, hc, rfl⟩
    simp only at hle hlt
    exact ⟨⟨p0, hp0, by omega, by omega⟩, by omega, by omega⟩
  · rintro ⟨⟨p, hp, hle, hlt⟩, h1, h2⟩
    refine ⟨(max p.1 q.1, min p.2 q.2), ?_, by simp; omega, by simp; omega⟩
    exact mem_cy_intersection.mpr ⟨p, hp, by omega, rfl⟩

theorem mem_cy_non_intersection {q : Nat × Nat} {l : List (Nat × Nat)} {p : Nat × Nat} :
    p ∈ cy_non_intersection q l ↔
      ∃ p0 ∈ l, (p0.1 < min p0.2 q.1 ∧ p = (p0.1, min p0.2 q.1)) ∨
        (max p0.1 q.2 < p0.2 ∧ p = (max p0.1 q.2, p0.2)) := by
  simp only [cy_non_intersection, List.mem_flatMap, List.mem_append]
  constructor
  · rintro ⟨p0, hp0, hmem | hmem⟩
    · refine ⟨p0, hp0, Or.inl ?_⟩
      split at hmem <;> simp_all
    · refine ⟨p0, hp0, Or.inr ?_⟩
      split at hmem <;> simp_all
  · rintro ⟨p0, hp0, ⟨hc, rfl⟩ | ⟨hc, rfl⟩⟩
    · exact ⟨p0, hp0, Or.inl (by simp [hc])⟩
    · exact ⟨p0, hp0, Or.inr (by simp [hc])⟩

theorem coveredB_cy_non_intersection (q : Nat × Nat) (l : List (Nat × Nat)) (i : Nat) :
    coveredB i (cy_non_intersection q l) =
      (coveredB i l && !(decide (q.1 ≤ i) && decide (i < q.2))) := by
  rw [Bool.eq_iff_iff]
  simp only [Bool.and_eq_true, Bool.not_eq_true', Bool.and_eq_false_iff,
    decide_eq_true_eq, decide_eq_false_iff_not, coveredB_eq_true_iff]
  constructor
  · rintro ⟨p, hp, hle, hlt⟩
    rcases mem_cy_non_intersection.mp hp with ⟨p0, hp0, ⟨hc, rfl⟩ | ⟨hc, rfl⟩⟩ <;>
      simp only at hle hlt <;>
      exact ⟨⟨p0, hp0, by omega, by omega⟩, by omega⟩
  · rintro ⟨⟨p, hp, hle, hlt⟩, houts⟩
    by_cases hq : i < q.1
    · refine ⟨(p.1, min p.2 q.1), mem_cy_non_intersection.mpr
        ⟨p, hp, Or.inl ⟨by omega, rfl⟩⟩, by simp; omega, by simp; omega⟩
    · have hq2 : q.2 ≤ i := by omega
      refine ⟨(max p.1 q.2, p.2), mem_cy_non_intersection.mpr
        ⟨p, hp, Or.inr ⟨by omega, rfl⟩⟩, by simp; omega, by simp; omega⟩

theorem pairLe_total (a b : Nat × Nat) : pairLe a b || pairLe b a := by
  simp only [pairLe, Bool.or_eq_true, decide_eq_true_eq]
  omega

theorem pairLe_trans (a b c : Nat × Nat) :
    pairLe a b → pairLe b c → pairLe a c := by
  simp only [pairLe, decide_eq_true_eq]
  omega

theorem sortDrop_pairwise (l : List (Nat × Nat)) :
    (sortDrop l).Pairwise (fun a b => pairLe a b = true) := by
  exact List.Pairwise.sublist (List.filter_sublist _)
    (List.sorted_mergeSort pairLe_trans pairLe_total l)

theorem mergeAdj_nil : mergeAdj [] = [] := by
  simp [mergeAdj]

theorem mergeAdj_single (p : Nat × Nat) : mergeAdj [p] = [p] := by
  simp [mergeAdj]

theorem sortDrop_proper (l : List (Nat × Nat)) :
    ∀ p ∈ sortDrop l, p.1 < p.2 := by
  intro p hp
  have := List.of_mem_filter hp
  simpa using this

theorem sortDrop_chain_start (l : List (Nat × Nat)) :
    (sortDrop l).Chain' (fun a b => a.1 ≤ b.1) := by
  refine List.Pairwise.chain' ((sortDrop_pairwise l).imp ?_)
  intro a b h
  simp only [pairLe, decide_eq_true_eq] at h
  omega

theorem sortDrop_covered (l : List (Nat × Nat)) (i : Nat) :
    coveredB i (sortDrop l) = coveredB i l := by
  rw [Bool.eq_iff_iff, coveredB_eq_true_iff, coveredB_eq_true_iff]
  constructor
  · rintro ⟨p, hp, h2⟩
    exact ⟨p, by simpa using (List.mem_mergeSort).mp (List.mem_of_mem_filter hp), h2⟩
  · rintro ⟨p, hp, h2⟩
    refine ⟨p, List.mem_filter.mpr ⟨List.mem_mergeSort.mpr hp, by simp; omega⟩, h2⟩

theorem mergeAdj_spec : ∀ l : List (Nat × Nat),
    l.Chain' (fun a b => a.1 ≤ b.1) → (∀ p ∈ l, p.1 < p.2) →
    Canon (mergeAdj l) ∧
      (mergeAdj l).head?.map Prod.fst = l.head?.map Prod.fst ∧
      ∀ i, coveredB i (mergeAdj l) = coveredB i l := by
  intro l
  induction l using mergeAdj.induct with
  | case1 =>
    intro _ _
    rw [mergeAdj_nil]
    exact ⟨⟨List.chain'_nil, by simp⟩, rfl, fun i => rfl⟩
  | case2 p =>
    intro _ hp
    rw [mergeAdj_single]
    exact ⟨⟨List.chain'_singleton p, hp⟩, rfl, fun i => rfl⟩
  | case3 s e s2 e2 rest hle ih =>
    intro hch hp
    rw [List.chain'_cons] at hch
    have hs12 : s ≤ s2 := hch.1
    have hch2 := hch.2
    rw [List.chain'_cons'] at hch2
    have hch' : List.Chain' (fun a b => a.1 ≤ b.1) ((s, max e e2) :: rest) := by
      rw [List.chain'_cons']
      exact ⟨fun y hy => le_trans hs12 (hch2.1 y hy), hch2.2⟩
    have hp' : ∀ p ∈ (s, max e e2) :: rest, p.1 < p.2 := by
      intro p hp'
      rcases List.mem_cons.mp hp' with rfl | hmem
      · have h1 : s < e := hp (s, e) (by simp)
        show s < max e e2
        omega
      · exact hp p (by simp [hmem])
    obtain ⟨hcanon, hhead, hcov⟩ := ih hch' hp'
    have heq : mergeAdj ((s, e) :: (s2, e2) :: rest) = mergeAdj ((s, max e e2) :: rest) := by
      rw [mergeAdj]
      simp [hle]
    refine ⟨heq ▸ hcanon, by rw [heq, hhead]; simp, fun i => ?_⟩
    rw [heq, hcov i]
    have he2 : s2 ≤ e := hle
    rw [Bool.eq_iff_iff, coveredB_eq_true_iff, coveredB_eq_true_iff]
    constructor
    · rintro ⟨p, hmem, h2⟩
      rcases List.mem_cons.mp hmem with rfl | hmem
      · have h2' : s ≤ i ∧ i < max e e2 := h2
        by_cases hi : i < e
        · refine ⟨(s, e), by simp, ?_⟩
          show s ≤ i ∧ i < e
          omega
        · refine ⟨(s2, e2), by simp, ?_⟩
          show s2 ≤ i ∧ i < e2
          omega
      · exact ⟨p, by simp [hmem], h2⟩
    · rintro ⟨p, hmem, h2⟩
      rcases List.mem_cons.mp hmem with rfl | hmem
      · have h2' : s ≤ i ∧ i < e := h2
        refine ⟨(s, max e e2), by simp, ?_⟩
        show s ≤ i ∧ i < max e e2
        omega
      rcases List.mem_cons.mp hmem with rfl | hmem
      · have h2' : s2 ≤ i ∧ i < e2 := h2
        refine ⟨(s, max e e2), by simp, ?_⟩
        show s ≤ i ∧ i < max e e2
        omega
      · exact ⟨p, by simp [hmem], h2⟩
  | case4 s e s2 e2 rest hle ih =>
    intro hch hp
    rw [List.chain'_cons] at hch
    obtain ⟨hcanon, hhead, hcov⟩ := ih hch.2 (fun p hp' => hp p (by simp [hp']))
    have heq : mergeAdj ((s, e) :: (s2, e2) :: rest) =
        (s, e) :: mergeAdj ((s2, e2) :: rest) := by
      rw [mergeAdj]
      simp [hle]
    refine ⟨?_, by rw [heq]; simp, fun i => ?_⟩
    · constructor
      · rw [heq, List.chain'_cons']
        refine ⟨fun y hy => ?_, hcanon.1⟩
        have : (mergeAdj ((s2, e2) :: rest)).head?.map Prod.fst = some s2 := hhead
        rcases hh : (mergeAdj ((s2, e2) :: rest)).head? with _ | y0
        · simp [hh] at hy
        · rw [hh] at this hy
          have hy0 : y = y0 := by
            have := hy
            simp only [Option.mem_def, Option.some.injEq] at this
            exact this.symm
          have hs2 : y0.1 = s2 := by simpa using this
          have hgoal : (s, e).2 < y0.1 := by
            show e < y0.1
            omega
          rw [hy0]
          exact hgoal
      · intro p hp'
        rw [heq] at hp'
        rcases List.mem_cons.mp hp' with rfl | hmem
        · exact hp (s, e) (by simp)
        · exact hcanon.2 p hmem
    · rw [heq, coveredB_cons, coveredB_cons, hcov i]

theorem normalize_canon (l : List (Nat × Nat)) : Canon (_normalize l) :=
  (mergeAdj_spec (sortDrop l) (sortDrop_chain_start l) (sortDrop_proper l)).1

theorem coveredB_normalize (l : List (Nat × Nat)) (i : Nat) :
    coveredB i (_normalize l) = coveredB i l := by
  rw [_normalize,
    (mergeAdj_spec (sortDrop l) (sortDrop_chain_start l) (sortDrop_proper l)).2.2 i,
    sortDrop_covered]

theorem canon_lt_of_mem {x : Nat × Nat} {l : List (Nat × Nat)} (h : Canon (x :: l)) :
    ∀ b ∈ l, x.2 < b.1 := by
  induction l generalizing x with
  | nil => simp
  | cons y t ih =>
    intro b hb
    obtain ⟨hch, hp⟩ := h
    rw [List.chain'_cons] at hch
    rcases List.mem_cons.mp hb with rfl | hmem
    · exact hch.1
    · have hy : Canon (y :: t) := ⟨hch.2, fun p hp' => hp p (by simp [hp'])⟩
      have := ih hy b hmem
      have hyp : y.1 < y.2 := hp y (by simp)
      omega

theorem canon_tail {x : Nat × Nat} {l : List (Nat × Nat)} (h : Canon (x :: l)) :
    Canon l := by
  obtain ⟨hch, hp⟩ := h
  rw [List.chain'_cons'] at hch
  exact ⟨hch.2, fun p hp' => hp p (by simp [hp'])⟩

theorem canon_pairwise {l : List (Nat × Nat)} (h : Canon l) :
    l.Pairwise (fun a b => a.2 < b.1) := by
  induction l with
  | nil => simp
  | cons x t ih =>
    exact List.pairwise_cons.mpr ⟨canon_lt_of_mem h, ih (canon_tail h)⟩

theorem canon_pairwise_le {l : List (Nat × Nat)} (h : Canon l) :
    l.Pairwise (fun a b => pairLe a b = true) := by
  refine (canon_pairwise h).imp_of_mem ?_
  intro a b ha _ hab
  have := h.2 a ha
  simp only [pairLe, decide_eq_true_eq]
  omega

theorem mergeAdj_of_canon : ∀ {l : List (Nat × Nat)}, Canon l → mergeAdj l = l := by
  intro l
  induction l using mergeAdj.induct with
  | case1 => intro _; exact mergeAdj_nil
  | case2 p => intro _; exact mergeAdj_single p
  | case3 s e s2 e2 rest hle ih =>
    intro h
    exfalso
    have := h.1
    rw [List.chain'_cons] at this
    have : e < s2 := this.1
    omega
  | case4 s e s2 e2 rest hle ih =>
    intro h
    rw [mergeAdj]
    simp only [hle, if_false]
    rw [ih (canon_tail h)]

theorem sortDrop_of_canon {l : List (Nat × Nat)} (h : Canon l) : sortDrop l = l := by
  rw [sortDrop, List.mergeSort_of_sorted (canon_pairwise_le h)]
  exact List.filter_eq_self.mpr (fun p hp => by simpa using h.2 p hp)

theorem normalize_of_canon {l : List (Nat × Nat)} (h : Canon l) : _normalize l = l := by
  rw [_normalize, sortDrop_of_canon h, mergeAdj_of_canon h]

theorem normalize_idem (l : List (Nat × Nat)) :
    _normalize (_normalize l) = _normalize l :=
  normalize_of_canon (normalize_canon l)

theorem sortDrop_eq_of_perm_filter {l1 l2 : List (Nat × Nat)}
    (h : (l1.filter (fun p => decide (p.1 < p.2))).Perm
      (l2.filter (fun p => decide (p.1 < p.2)))) :
    sortDrop l1 = sortDrop l2 := by
  haveI : IsAntisymm (Nat × Nat) (fun a b => pairLe a b = true) := by
    constructor
    intro a b h1 h2
    simp only [pairLe, decide_eq_true_eq] at h1 h2
    rcases a with ⟨a1, a2⟩
    rcases b with ⟨b1, b2⟩
    simp only [Prod.mk.injEq]
    simp only at h1 h2
    omega
  refine List.eq_of_perm_of_sorted ?_ (sortDrop_pairwise l1) (sortDrop_pairwise l2)
  exact (((List.mergeSort_perm l1 pairLe).filter _).trans h).trans
    ((List.mergeSort_perm l2 pairLe).filter _).symm

theorem normalize_eq_of_perm {l1 l2 : List (Nat × Nat)} (h : l1.Perm l2) :
    _normalize l1 = _normalize l2 := by
  rw [_normalize, _normalize, sortDrop_eq_of_perm_filter (h.filter _)]

theorem canon_eq_of_coveredB : ∀ {l1 l2 : List (Nat × Nat)}, Canon l1 → Canon l2 →
    (∀ i, coveredB i l1 = coveredB i l2) → l1 = l2 := by
  intro l1
  induction l1 with
  | nil =>
    intro l2 _ h2 hcov
    rcases l2 with _ | ⟨⟨s, e⟩, t⟩
    · rfl
    · exfalso
      have hc : coveredB s (((s, e) :: t) : List (Nat × Nat)) = true := by
        rw [coveredB_eq_true_iff]
        exact ⟨(s, e), by simp, by simpa using h2.2 (s, e) (by simp)⟩
      rw [← hcov s] at hc
      simp [coveredB_nil] at hc
  | cons x t1 ih =>
    intro l2 h1 h2 hcov
    rcases l2 with _ | ⟨y, t2⟩
    · exfalso
      have hc : coveredB x.1 (x :: t1) = true := by
        rw [coveredB_eq_true_iff]
        exact ⟨x, by simp, by simpa using h1.2 x (by simp)⟩
      rw [hcov x.1] at hc
      simp [coveredB_nil] at hc
    · have hx : x.1 < x.2 := h1.2 x (by simp)
      have hy : y.1 < y.2 := h2.2 y (by simp)
      have hmin1 : ∀ i, coveredB i (x :: t1) = true → x.1 ≤ i := by
        intro i hc
        rcases (coveredB_eq_true_iff _ _).mp hc with ⟨p, hp, hple, _⟩
        rcases List.mem_cons.mp hp with rfl | hmem
        · exact hple
        · have := canon_lt_of_mem h1 p hmem
          omega
      have hmin2 : ∀ i, coveredB i (y :: t2) = true → y.1 ≤ i := by
        intro i hc
        rcases (coveredB_eq_true_iff _ _).mp hc with ⟨p, hp, hple, _⟩
        rcases List.mem_cons.mp hp with rfl | hmem
        · exact hple
        · have := canon_lt_of_mem h2 p hmem
          omega
      have hcx : coveredB x.1 (x :: t1) = true := by
        rw [coveredB_eq_true_iff]; exact ⟨x, by simp, by omega⟩
      have hcy : coveredB y.1 (y :: t2) = true := by
        rw [coveredB_eq_true_iff]; exact ⟨y, by simp, by omega⟩
      have hseq : x.1 = y.1 := by
        have h1' := hmin2 x.1 ((hcov x.1) ▸ hcx)
        have h2' := hmin1 y.1 ((hcov y.1).symm ▸ hcy)
        omega
      have hnc1 : coveredB x.2 (x :: t1) = false := by
        rw [← Bool.not_eq_true, coveredB_eq_true_iff]
        rintro ⟨p, hp, hple, hplt⟩
        rcases List.mem_cons.mp hp with rfl | hmem
        · omega
        · have := canon_lt_of_mem h1 p hmem
          omega
      have hnc2 : coveredB y.2 (y :: t2) = false := by
        rw [← Bool.not_eq_true, coveredB_eq_true_iff]
        rintro ⟨p, hp, hple, hplt⟩
        rcases List.mem_cons.mp hp with rfl | hmem
        · omega
        · have := canon_lt_of_mem h2 p hmem
          omega
      have heeq : x.2 = y.2 := by
        by_contra hne
        rcases Nat.lt_or_ge x.2 y.2 with hlt | hge
        · have hc : coveredB x.2 (y :: t2) = true := by
            rw [coveredB_eq_true_iff]
            exact ⟨y, by simp, by omega⟩
          rw [← hcov x.2] at hc
          rw [hnc1] at hc
          exact Bool.false_ne_true hc
        · have hlt2 : y.2 < x.2 := by omega
          have hc : coveredB y.2 (x :: t1) = true := by
            rw [coveredB_eq_true_iff]
            exact ⟨x, by simp, by omega⟩
          rw [hcov y.2] at hc
          rw [hnc2] at hc
          exact Bool.false_ne_true hc
      have htailcov : ∀ i, coveredB i t1 = coveredB i t2 := by
        intro i
        by_cases hi : x.2 ≤ i
        · have e1 : coveredB i (x :: t1) = coveredB i t1 := by
            rw [coveredB_cons]
            have : decide (i < x.2) = false := by simp; omega
            rw [this]
            simp
          have e2 : coveredB i (y :: t2) = coveredB i t2 := by
            rw [coveredB_cons]
            have : decide (i < y.2) = false := by simp; omega
            rw [this]
            simp
          rw [← e1, ← e2, hcov i]
        · have e1 : coveredB i t1 = false := by
            rw [← Bool.not_eq_true, coveredB_eq_true_iff]
            rintro ⟨p, hp, hple, hplt⟩
            have := canon_lt_of_mem h1 p hp
            omega
          have e2 : coveredB i t2 = false := by
            rw [← Bool.not_eq_true, coveredB_eq_true_iff]
            rintro ⟨p, hp, hple, hplt⟩
            have := canon_lt_of_mem h2 p hp
            omega
          rw [e1, e2]
      have hxy : x = y := by
        rcases x with ⟨x1, x2⟩
        rcases y with ⟨y1, y2⟩
        simp only at hseq heeq
        simp [hseq, heeq]
      rw [hxy, ih (canon_tail h1) (canon_tail h2) htailcov]

theorem normalize_eq_of_coveredB {l1 l2 : List (Nat × Nat)}
    (h : ∀ i, coveredB i l1 = coveredB i l2) : _normalize l1 = _normalize l2 :=
  canon_eq_of_coveredB (normalize_canon l1) (normalize_canon l2)
    (fun i => by rw [coveredB_normalize, coveredB_normalize, h i])

theorem fillRange_length (arr : List Bool) (a b : Nat) :
    (fillRange arr a b).length = arr.length := by
  simp [fillRange]

theorem fillRange_getD {arr : List Bool} {j : Nat} (a b : Nat) (h : j < arr.length) :
    (fillRange arr a b).getD j false =
      ((decide (a ≤ j) && decide (j < b)) || arr.getD j false) := by
  rw [List.getD_eq_getElem?_getD, List.getD_eq_getElem?_getD, fillRange,
    List.getElem?_mapIdx, List.getElem?_eq_getElem h]
  by_cases h1 : a ≤ j <;> by_cases h2 : j < b <;> simp [h1, h2]

theorem foldl_fill_length (start : Nat) :
    ∀ (ivs : List (Nat × Nat)) (arr : List Bool),
      (ivs.foldl (fun a p => fillRange a (p.1 - start) (p.2 - start)) arr).length =
        arr.length := by
  intro ivs
  induction ivs with
  | nil => intro arr; rfl
  | cons p t ih =>
    intro arr
    rw [List.foldl_cons, ih, fillRange_length]

theorem foldl_fill_getD (start : Nat) :
    ∀ (ivs : List (Nat × Nat)) (arr : List Bool) (j : Nat), j < arr.length →
      ((ivs.foldl (fun a p => fillRange a (p.1 - start) (p.2 - start)) arr).getD j false) =
        (arr.getD j false ||
          ivs.any (fun p => decide (p.1 - start ≤ j) && decide (j < p.2 - start))) := by
  intro ivs
  induction ivs with
  | nil => intro arr j h; simp
  | cons p t ih =>
    intro arr j h
    rw [List.foldl_cons,
      ih (fillRange arr (p.1 - start) (p.2 - start)) j (by rw [fillRange_length]; exact h),
      fillRange_getD _ _ h, List.any_cons]
    cases arr.getD j false <;>
      cases hc : (decide (p.1 - start ≤ j) && decide (j < p.2 - start)) <;> simp [hc]

theorem denseOf_length (start stop : Nat) (ivs : List (Nat × Nat)) :
    (denseOf start stop ivs).length = stop - start := by
  rw [denseOf, foldl_fill_length]
  simp

theorem denseOf_getD (start stop : Nat) (ivs : List (Nat × Nat)) (j : Nat)
    (hj : j < stop - start) :
    (denseOf start stop ivs).getD j false =
      ivs.any (fun p => decide (p.1 - start ≤ j) && decide (j < p.2 - start)) := by
  rw [denseOf, foldl_fill_getD start ivs _ j (by simpa using hj)]
  have : (List.replicate (stop - start) false).getD j false = false := by
    rw [List.getD_eq_getElem?_getD, List.getElem?_replicate]
    split <;> rfl
  rw [this]
  simp

theorem denseOf_intersection_getD (L : List (Nat × Nat)) (start stop j : Nat)
    (hj : j < stop - start) :
    (denseOf start stop (cy_intersection (start, stop) L)).getD j false =
      coveredB (start + j) L := by
  rw [denseOf_getD _ _ _ _ hj, Bool.eq_iff_iff, List.any_eq_true, coveredB_eq_true_iff]
  constructor
  · rintro ⟨p, hp, hcond⟩
    rcases mem_cy_intersection.mp hp with ⟨p0, hp0, hc, rfl⟩
    dsimp only at hcond hc
    simp only [Bool.and_eq_true, decide_eq_true_eq] at hcond
    exact ⟨p0, hp0, by omega, by omega⟩
  · rintro ⟨p, hp, h1, h2⟩
    refine ⟨(max p.1 start, min p.2 stop), mem_cy_intersection.mpr
      ⟨p, hp, by dsimp only; omega, by dsimp only⟩, ?_⟩
    simp only [Bool.and_eq_true, decide_eq_true_eq]
    omega

theorem list_eq_range_map {n : Nat} {l : List Bool} (hlen : l.length = n)
    (f : Nat → Bool) (h : ∀ j, j < n → l.getD j false = f j) :
    l = (List.range n).map f := by
  apply List.ext_getElem
  · simp [hlen]
  · intro i h1 h2
    have hi : i < n := by omega
    have hd := h i hi
    rw [List.getD_eq_getElem?_getD, List.getElem?_eq_getElem h1] at hd
    simp only [Option.getD_some] at hd
    simp [hd]

theorem coveredB_normalized_intervals (m : ArrayIntervall) (i : Nat) :
    coveredB i (normalized_intervals m) = coveredB i m._intervals := by
  rw [normalized_intervals, touch]
  split
  · rfl
  · exact coveredB_normalize _ _

theorem getitemM_ok {it : Item} {m : ArrayIntervall} {s e : Nat}
    (hp : cy_parse_item it m.shape = .ok (s, e)) :
    getitemM it m =
      (.ok ((List.range (e - s)).map (fun j => coveredB (s + j) m._intervals)),
        touch m) := by
  rw [getitemM, hp]
  refine Prod.ext ?_ rfl
  simp only
  congr 1
  refine list_eq_range_map (denseOf_length s e _) _ (fun j hj => ?_)
  rw [denseOf_intersection_getD _ _ _ _ hj, coveredB_normalized_intervals]

theorem coveredB_map_shift_zero (L : List (Nat × Nat)) :
    coveredB 0 (L.map (Prod.map (· + 1) (· + 1))) = false := by
  rw [← Bool.not_eq_true, coveredB_eq_true_iff]
  rintro ⟨p, hp, h1, h2⟩
  rcases List.mem_map.mp hp with ⟨p0, hp0, rfl⟩
  rcases p0 with ⟨u, v⟩
  simp [Prod.map] at h1

theorem coveredB_map_shift_succ (L : List (Nat × Nat)) (i : Nat) :
    coveredB (i + 1) (L.map (Prod.map (· + 1) (· + 1))) = coveredB i L := by
  rw [Bool.eq_iff_iff, coveredB_eq_true_iff, coveredB_eq_true_iff]
  constructor
  · rintro ⟨p, hp, h1, h2⟩
    rcases List.mem_map.mp hp with ⟨⟨u, v⟩, hp0, rfl⟩
    simp only [Prod.map] at h1 h2
    exact ⟨(u, v), hp0, by omega, by omega⟩
  · rintro ⟨⟨u, v⟩, hp, h1, h2⟩
    refine ⟨(u + 1, v + 1), List.mem_map.mpr ⟨(u, v), hp, rfl⟩, by omega, by omega⟩

theorem risingCore_cons (x : Bool) (b : List Bool) (hb : b ≠ []) :
    risingCore (x :: b) =
      (if b.getD 0 false && !x then [1] else []) ++ (risingCore b).map (· + 1) := by
  have hbl : 0 < b.length := List.length_pos.mpr hb
  have hlen : (x :: b).length - 1 = (b.length - 1) + 1 := by
    simp only [List.length_cons]
    omega
  rw [risingCore, risingCore, hlen, List.range_succ_eq_map, List.filterMap_cons,
    List.filterMap_map, List.map_filterMap]
  have htail : List.filterMap
      ((fun i => if (x :: b).getD (i + 1) false && !((x :: b).getD i false)
        then some (i + 1) else none) ∘ Nat.succ) (List.range (b.length - 1)) =
      List.filterMap (fun i => Option.map (· + 1)
        (if b.getD (i + 1) false && !(b.getD i false) then some (i + 1) else none))
        (List.range (b.length - 1)) := by
    apply List.filterMap_congr
    intro i _
    cases hg1 : (b[i + 1]?).getD false <;> cases hg2 : (b[i]?).getD false <;>
      simp [List.getD_eq_getElem?_getD, hg1, hg2, Nat.succ_eq_add_one]
  rw [htail]
  by_cases hb0 : b.getD 0 false = true <;>
    simp only [List.getD_eq_getElem?_getD] at hb0 <;>
    by_cases hx : x = true <;> simp [hb0, hx]

theorem fallingCore_cons (x : Bool) (b : List Bool) (hb : b ≠ []) :
    fallingCore (x :: b) =
      (if x && !(b.getD 0 false) then [1] else []) ++ (fallingCore b).map (· + 1) := by
  have hbl : 0 < b.length := List.length_pos.mpr hb
  have hlen : (x :: b).length - 1 = (b.length - 1) + 1 := by
    simp only [List.length_cons]
    omega
  rw [fallingCore, fallingCore, hlen, List.range_succ_eq_map, List.filterMap_cons,
    List.filterMap_map, List.map_filterMap]
  have htail : List.filterMap
      ((fun i => if (x :: b).getD i false && !((x :: b).getD (i + 1) false)
        then some (i + 1) else none) ∘ Nat.succ) (List.range (b.length - 1)) =
      List.filterMap (fun i => Option.map (· + 1)
        (if b.getD i false && !(b.getD (i + 1) false) then some (i + 1) else none))
        (List.range (b.length - 1)) := by
    apply List.filterMap_congr
    intro i _
    cases hg1 : (b[i + 1]?).getD false <;> cases hg2 : (b[i]?).getD false <;>
      simp [List.getD_eq_getElem?_getD, hg1, hg2, Nat.succ_eq_add_one]
  rw [htail]
  by_cases hb0 : b.getD 0 false = true <;>
    simp only [List.getD_eq_getElem?_getD] at hb0 <;>
    by_cases hx : x = true <;> simp [hb0, hx]

theorem fallingIdx_cons (x : Bool) (b : List Bool) (hb : b ≠ []) :
    fallingIdx (x :: b) =
      (if x && !(b.getD 0 false) then [1] else []) ++ (fallingIdx b).map (· + 1) := by
  rw [fallingIdx, fallingCore_cons x b hb, fallingIdx, List.map_append,
    List.append_assoc]
  congr 1
  congr 1
  rcases b with _ | ⟨y, t⟩
  · exact absurd rfl hb
  · rw [List.getLast?_cons_cons]
    split <;> simp [List.length_cons]

theorem risingIdx_cons_false (b : List Bool) (hb : b ≠ []) :
    risingIdx (false :: b) = (risingIdx b).map (· + 1) := by
  rw [risingIdx, risingCore_cons false b hb, risingIdx, List.map_append]
  by_cases hb0 : (b[0]?).getD false = true <;>
    simp [List.getD_eq_getElem?_getD, hb0]

theorem risingIdx_cons_true_false (b : List Bool) (hb : b ≠ [])
    (hb0 : b.getD 0 false = false) :
    risingIdx (true :: b) = 0 :: (risingIdx b).map (· + 1) := by
  rw [risingIdx, risingCore_cons true b hb, risingIdx, List.map_append]
  simp only [List.getD_eq_getElem?_getD] at hb0
  simp [List.getD_eq_getElem?_getD, hb0]

theorem risingIdx_cons_true_true (b : List Bool) (hb : b ≠ [])
    (hb0 : b.getD 0 false = true) :
    risingIdx (true :: b) = 0 :: (risingCore b).map (· + 1) := by
  rw [risingIdx, risingCore_cons true b hb]
  simp only [List.getD_eq_getElem?_getD] at hb0
  simp [List.getD_eq_getElem?_getD, hb0]

theorem risingIdx_head_true (b : List Bool) (hb0 : b.getD 0 false = true) :
    risingIdx b = 0 :: risingCore b := by
  rw [risingIdx, hb0]
  rfl

theorem coveredB_zip_rising_falling :
    ∀ (a : List Bool) (i : Nat),
      coveredB i ((risingIdx a).zip (fallingIdx a)) = a.getD i false := by
  intro a
  induction a with
  | nil =>
    intro i
    simp [risingIdx, fallingIdx, risingCore, fallingCore, coveredB]
  | cons x b ih =>
    intro i
    by_cases hb : b = []
    · subst hb
      cases x <;> cases i <;>
        simp [risingIdx, fallingIdx, risingCore, fallingCore, coveredB]
    · by_cases hx : x = true
      · subst hx
        by_cases hb0 : b.getD 0 false = true
        · -- the first run of `b` starts at 0 and is extended through index 0
          have hcov0 : coveredB 0 ((risingIdx b).zip (fallingIdx b)) = true := by
            rw [ih 0, hb0]
          have hFne : fallingIdx b ≠ [] := by
            intro hF
            rw [hF, List.zip_nil_right] at hcov0
            simp [coveredB] at hcov0
          rcases hF : fallingIdx b with _ | ⟨f0, F2⟩
          · exact absurd hF hFne
          have hR : risingIdx b = 0 :: risingCore b := risingIdx_head_true b hb0
          have hzip : (risingIdx (true :: b)).zip (fallingIdx (true :: b)) =
              (0, f0 + 1) :: ((risingCore b).map (· + 1)).zip (F2.map (· + 1)) := by
            rw [risingIdx_cons_true_true b hb hb0, fallingIdx_cons true b hb, hb0, hF]
            simp
          have hih : ∀ j, ((decide (0 ≤ j) && decide (j < f0)) ||
              coveredB j ((risingCore b).zip F2)) = b.getD j false := by
            intro j
            have hj := ih j
            rw [hR, hF, List.zip_cons_cons, coveredB_cons] at hj
            exact hj
          rw [hzip]
          cases i with
          | zero =>
            rw [coveredB_cons]
            simp
          | succ i =>
            rw [coveredB_cons, List.zip_map, coveredB_map_shift_succ,
              List.getD_cons_succ, ← hih i]
            congr 1
            rw [Bool.eq_iff_iff]
            simp only [Bool.and_eq_true, decide_eq_true_eq]
            constructor
            · rintro ⟨h1, h2⟩
              refine ⟨by omega, ?_⟩
              have h2' : i + 1 < f0 + 1 := h2
              omega
            · rintro ⟨h1, h2⟩
              refine ⟨by omega, ?_⟩
              show i + 1 < f0 + 1
              omega
        · -- index 0 of `b` is false: a fresh run `[0, 1)` starts at the head
          have hzip : (risingIdx (true :: b)).zip (fallingIdx (true :: b)) =
              (0, 1) :: ((risingIdx b).map (· + 1)).zip ((fallingIdx b).map (· + 1)) := by
            rw [risingIdx_cons_true_false b hb (by simpa using hb0),
              fallingIdx_cons true b hb]
            simp only [Bool.not_eq_true] at hb0
            rw [hb0]
            simp
          rw [hzip]
          cases i with
          | zero =>
            rw [coveredB_cons]
            simp
          | succ i =>
            rw [coveredB_cons, List.zip_map, coveredB_map_shift_succ,
              List.getD_cons_succ, ih i]
            simp
      · -- head is false: everything shifts by one
        have hxf : x = false := by simpa using hx
        subst hxf
        have hzip : (risingIdx (false :: b)).zip (fallingIdx (false :: b)) =
            ((risingIdx b).map (· + 1)).zip ((fallingIdx b).map (· + 1)) := by
          rw [risingIdx_cons_false b hb, fallingIdx_cons false b hb]
          simp
        rw [hzip, List.zip_map]
        cases i with
        | zero =>
          rw [coveredB_map_shift_zero]
          simp
        | succ i =>
          rw [coveredB_map_shift_succ, List.getD_cons_succ, ih i]

theorem fromDense_ok {a : List Bool} {m : ArrayIntervall} (h : fromDense a = .ok m) :
    m.shape = some a.length ∧ m._intervals = (risingIdx a).zip (fallingIdx a) := by
  rw [fromDense] at h
  split at h
  · cases h
  · injection h with h
    subst h
    exact ⟨rfl, rfl⟩

theorem fromDense_coveredB {a : List Bool} {m : ArrayIntervall}
    (h : fromDense a = .ok m) (i : Nat) :
    coveredB i m._intervals = a.getD i false := by
  rw [(fromDense_ok h).2, coveredB_zip_rising_falling]

theorem setitemM_scalar_one {it : Item} {m : ArrayIntervall} {s e : Nat}
    (hp : cy_parse_item it m.shape = .ok (s, e)) :
    setitemM it (.scalar 1) m =
      (.ok (), setIntervals m (m._intervals ++ [(s, e)])) := by
  simp [setitemM, hp]

theorem setitemM_scalar_zero {it : Item} {m : ArrayIntervall} {s e : Nat}
    (hp : cy_parse_item it m.shape = .ok (s, e)) :
    setitemM it (.scalar 0) m =
      (.ok (), setIntervals m (cy_non_intersection (s, e) m._intervals)) := by
  simp [setitemM, hp]

theorem setitemM_dense {it : Item} {m ai : ArrayIntervall} {s e : Nat}
    {pat : List Bool} (hp : cy_parse_item it m.shape = .ok (s, e))
    (hlen : pat.length = e - s) (hfd : fromDense pat = .ok ai) :
    setitemM it (.dense pat) m =
      (.ok (), setIntervals m (cy_non_intersection (s, e) m._intervals ++
        ai._intervals.map (fun p => (p.1 + s, p.2 + s)))) := by
  simp [setitemM, hp, hlen, hfd]

theorem coveredB_setIntervals (m : ArrayIntervall) (l : List (Nat × Nat)) (i : Nat) :
    coveredB i (setIntervals m l)._intervals = coveredB i l := rfl

theorem coveredB_map_shift (L : List (Nat × Nat)) (s i : Nat) :
    coveredB i (L.map (fun p => (p.1 + s, p.2 + s))) =
      (decide (s ≤ i) && coveredB (i - s) L) := by
  rw [Bool.eq_iff_iff]
  simp only [Bool.and_eq_true, decide_eq_true_eq, coveredB_eq_true_iff]
  constructor
  · rintro ⟨p, hp, h1, h2⟩
    rcases List.mem_map.mp hp with ⟨⟨u, v⟩, hp0, rfl⟩
    dsimp only at h1 h2
    exact ⟨by omega, (u, v), hp0, by omega, by omega⟩
  · rintro ⟨hsi, ⟨u, v⟩, hp, h1, h2⟩
    exact ⟨(u + s, v + s), List.mem_map.mpr ⟨(u, v), hp, rfl⟩, by omega, by omega⟩

theorem getitemM_snd (it : Item) (m : ArrayIntervall) :
    (getitemM it m).2 = m ∨ (getitemM it m).2 = touch m := by
  rcases hp : cy_parse_item it m.shape with er | se
  · left
    simp [getitemM, hp]
  · right
    rcases se with ⟨s, e⟩
    simp [getitemM, hp]

/-- The central dense-equivalence invariant: along every reachable state the
mask's membership function coincides with the dense model. -/
theorem reaches_coveredB {m : ArrayIntervall} {f : Nat → Bool}
    (h : Reaches m f) : ∀ i, coveredB i m._intervals = f i := by
  induction h with
  | init_zeros dl => intro i; rfl
  | init_dense d m hfd => exact fromDense_coveredB hfd
  | init_text s dl ivs m hok hparse =>
    intro i
    rw [ArrayIntervall_from_str] at hok
    by_cases hs : s.isEmpty
    · rw [if_pos hs] at hok
      injection hok with hok
      subst hok
      have hs2 : s = [] := by simpa [List.isEmpty_iff] using hs
      subst hs2
      have hivs : ivs = [] := by
        have : cy_str_to_intervalls [','] = .ok ([] : List (Nat × Nat)) := by rfl
        rw [show (if ([] : List Char).contains ',' then ([] : List Char)
          else [] ++ [',']) = [','] from rfl, this] at hparse
        injection hparse with hparse
        exact hparse.symm
      subst hivs
      rfl
    · rw [if_neg hs] at hok
      simp only [add_intervals_from_str, hparse] at hok
      injection hok with hok
      subst hok
      rw [coveredB_setIntervals]
      simp [zeros, coveredB_append]
  | step_set_true m f it s e m2 hre hp hset ih =>
    intro i
    show coveredB i m2._intervals = if s ≤ i ∧ i < e then true else f i
    rw [setitemM_scalar_one hp] at hset
    injection hset with _ hm2
    subst hm2
    rw [coveredB_setIntervals, coveredB_append, ih i, coveredB_cons]
    by_cases h1 : s ≤ i ∧ i < e
    · simp [h1, h1.1, h1.2]
    · rw [if_neg h1]
      rcases Decidable.not_and_iff_or_not.mp h1 with h2 | h2 <;> simp [h2, coveredB_nil]
  | step_set_false m f it s e m2 hre hp hset ih =>
    intro i
    show coveredB i m2._intervals = if s ≤ i ∧ i < e then false else f i
    rw [setitemM_scalar_zero hp] at hset
    injection hset with _ hm2
    subst hm2
    rw [coveredB_setIntervals, coveredB_cy_non_intersection, ih i]
    by_cases h1 : s ≤ i ∧ i < e
    · simp [h1.1, h1.2, h1]
    · rw [if_neg h1]
      rcases Decidable.not_and_iff_or_not.mp h1 with h2 | h2 <;> simp [h2]
  | step_set_dense m f it s e pat m2 hre hp hset ih =>
    intro i
    show coveredB i m2._intervals =
      if s ≤ i ∧ i < e then pat.getD (i - s) false else f i
    by_cases hlen : pat.length = e - s
    · rcases hfd : fromDense pat with er | ai
      · rw [setitemM] at hset
        rw [hp] at hset
        simp only [hlen, if_true, hfd] at hset
        exact absurd (congrArg Prod.fst hset) (by simp)
      · rw [setitemM_dense hp hlen hfd] at hset
        injection hset with _ hm2
        subst hm2
        rw [coveredB_setIntervals, coveredB_append, coveredB_cy_non_intersection,
          ih i, coveredB_map_shift, fromDense_coveredB hfd]
        by_cases h1 : s ≤ i ∧ i < e
        · have hd : decide (s ≤ i) = true := by simp [h1.1]
          rw [if_pos h1, hd]
          have h2 : (decide (s ≤ i) && decide (i < e)) = true := by
            simp [h1.1, h1.2]
          simp [h1.1, h1.2]
        · rw [if_neg h1]
          rcases Decidable.not_and_iff_or_not.mp h1 with h2 | h2
          · have : decide (s ≤ i) = false := by simp; omega
            simp [this, h2]
          · have hge : e ≤ i := by omega
            have hout : (pat[i - s]?) = none := List.getElem?_eq_none (by omega)
            by_cases hsi : s ≤ i
            · simp [hsi, hout, h2]
            · simp [hsi]
    · rw [setitemM] at hset
      rw [hp] at hset
      simp only [hlen, if_false] at hset
      exact absurd (congrArg Prod.fst hset) (by simp)
  | step_union a fa b fb m2 hra hrb hu iha ihb =>
    intro i
    show coveredB i m2._intervals = (fa i || fb i)
    rw [unionE] at hu
    split at hu
    · injection hu with hu
      subst hu
      rw [coveredB_setIntervals, coveredB_append, iha i, ihb i]
    · cases hu
  | step_get m f it r m2 hre hget ih =>
    intro i
    have hsnd := getitemM_snd it m
    rw [hget] at hsnd
    rcases hsnd with h2 | h2
    · have hm : m2 = m := h2
      rw [hm]
      exact ih i
    · have hm : m2 = touch m := h2
      rw [hm, show (touch m)._intervals = normalized_intervals m from rfl,
        coveredB_normalized_intervals]
      exact ih i

/-- C1: for every sequence of mask operations (construction via
`zeros`/`from_dense`/`from_text`, scalar-true, scalar-false and dense
boolean-pattern assignment, union, interleaved reads), a subsequent `get`
over any resolvable range returns exactly the dense boolean sequence that a
materialized boolean array of the same domain would hold after the same
sequence of operations, and the mask's logical value at index `i` is true
iff `i` lies inside some stored interval. -/
theorem C1_dense_equivalence {m : ArrayIntervall} {f : Nat → Bool}
    (h : Reaches m f) :
    (∀ i, coveredB i m._intervals = f i) ∧
    (∀ (it : Item) (s e : Nat), cy_parse_item it m.shape = .ok (s, e) →
      getitemM it m =
        (.ok ((List.range (e - s)).map (fun j => f (s + j))), touch m)) := by
  refine ⟨reaches_coveredB h, fun it s e hp => ?_⟩
  rw [getitemM_ok hp]
  congr 1
  congr 1
  apply List.map_congr_left
  intro j _
  exact reaches_coveredB h (s + j)

/-- Witness for C1 at the concrete reachable state `zeros 2`. -/
theorem C1_dense_equivalence_witness :
    (∀ i, coveredB i (zeros (some 2))._intervals = false) ∧
    (∀ (it : Item) (s e : Nat),
      cy_parse_item it (zeros (some 2)).shape = .ok (s, e) →
      getitemM it (zeros (some 2)) =
        (.ok ((List.range (e - s)).map (fun _ => false)), touch (zeros (some 2)))) :=
  C1_dense_equivalence (Reaches.init_zeros (some 2))

/-- C2: `_normalize` drops every degenerate pair and returns a sequence
sorted ascending by start whose intervals are pairwise disjoint and
non-adjacent, the result depends only on the input multiset, and the two
concrete merge laws of the specification hold. -/
theorem C2_normalize_spec :
    (∀ l : List (Nat × Nat),
      (∀ p ∈ _normalize l, p.1 < p.2) ∧
      (_normalize l).Pairwise (fun a b => a.1 < b.1) ∧
      (_normalize l).Pairwise (fun a b => a.2 < b.1) ∧
      (∀ l2, l.Perm l2 → _normalize l2 = _normalize l)) ∧
    _normalize [(0, 1), (1, 3), (3, 10)] = [(0, 10)] ∧
    _normalize [(0, 1), (2, 3)] = [(0, 1), (2, 3)] := by
  refine ⟨fun l => ⟨(normalize_canon l).2, ?_, canon_pairwise (normalize_canon l),
      fun l2 h => normalize_eq_of_perm h.symm⟩, ?_, ?_⟩
  · refine (canon_pairwise (normalize_canon l)).imp_of_mem ?_
    intro a b ha _ hab
    have := (normalize_canon l).2 a ha
    omega
  · exact canon_eq_of_coveredB (normalize_canon _) ⟨by simp, by simp⟩
      (fun i => by
        rw [coveredB_normalize]
        rw [Bool.eq_iff_iff, coveredB_eq_true_iff, coveredB_eq_true_iff]
        constructor
        · rintro ⟨p, hp, h1, h2⟩
          fin_cases hp <;> exact ⟨(0, 10), by simp, by omega, by omega⟩
        · rintro ⟨p, hp, h1, h2⟩
          fin_cases hp
          by_cases hi1 : i < 1
          · exact ⟨(0, 1), by simp, by omega, by omega⟩
          by_cases hi3 : i < 3
          · exact ⟨(1, 3), by simp, by omega, by omega⟩
          · exact ⟨(3, 10), by simp, by omega, by omega⟩)
  · exact normalize_of_canon ⟨by simp, by simp⟩

/-- Witness for C2's permutation-determinism hypothesis at a concrete
permuted pair of lists. -/
theorem C2_normalize_spec_witness :
    _normalize [(0, 1), (1, 3)] = _normalize [(1, 3), (0, 1)] :=
  (C2_normalize_spec.1 [(1, 3), (0, 1)]).2.2.2 [(0, 1), (1, 3)] (by decide)

theorem dChar_toNat : ∀ d, d < 10 → (dChar d).toNat = 48 + d := by decide

theorem dChar_digit : ∀ d, d < 10 → isDigitCh (dChar d) = true := by decide

theorem natDigits_lt {n : Nat} (h : n < 10) : natDigits n = [dChar n] := by
  rw [natDigits]
  simp [h]

theorem natDigits_ge {n : Nat} (h : ¬n < 10) :
    natDigits n = natDigits (n / 10) ++ [dChar (n % 10)] := by
  rw [natDigits]
  simp [h]

theorem natDigits_ne_nil (n : Nat) : natDigits n ≠ [] := by
  by_cases h : n < 10
  · rw [natDigits_lt h]
    simp
  · rw [natDigits_ge h]
    simp

theorem natDigits_mem_digit :
    ∀ (n : Nat), ∀ c ∈ natDigits n, isDigitCh c = true := by
  intro n
  induction n using natDigits.induct with
  | case1 n h =>
    rw [natDigits_lt h]
    intro c hc
    rw [List.mem_singleton.mp hc]
    exact dChar_digit n h
  | case2 n h ih =>
    rw [natDigits_ge h]
    intro c hc
    rcases List.mem_append.mp hc with hm | hm
    · exact ih c hm
    · rw [List.mem_singleton.mp hm]
      exact dChar_digit (n % 10) (Nat.mod_lt n (by omega))

theorem decodeDigits_append (l : List Char) (c : Char) :
    decodeDigits (l ++ [c]) = decodeDigits l * 10 + digitVal c := by
  simp [decodeDigits, List.foldl_append]

theorem decodeDigits_natDigits : ∀ n, decodeDigits (natDigits n) = n := by
  intro n
  induction n using natDigits.induct with
  | case1 n h =>
    rw [natDigits_lt h]
    simp [decodeDigits, digitVal, dChar_toNat n h]
  | case2 n h ih =>
    rw [natDigits_ge h, decodeDigits_append, ih]
    rw [digitVal, dChar_toNat (n % 10) (Nat.mod_lt n (by omega))]
    omega

theorem parseNatChars_natDigits (n : Nat) : parseNatChars (natDigits n) = some n := by
  rw [parseNatChars, if_pos, decodeDigits_natDigits]
  rw [Bool.and_eq_true]
  constructor
  · simp [natDigits_ne_nil n]
  · rw [List.all_eq_true]
    exact natDigits_mem_digit n

theorem digit_ne_special {c : Char} (h : isDigitCh c = true) :
    c ≠ ':' ∧ c ≠ ',' ∧ c ≠ ' ' := by
  refine ⟨?_, ?_, ?_⟩ <;> rintro rfl <;> revert h <;> decide

theorem natDigits_no_special (n : Nat) :
    ∀ c ∈ natDigits n, c ≠ ':' ∧ c ≠ ',' ∧ c ≠ ' ' :=
  fun c hc => digit_ne_special (natDigits_mem_digit n c hc)

theorem tokenOf_no_comma (p : Nat × Nat) : ∀ c ∈ tokenOf p, c ≠ ',' := by
  intro c hc
  rw [tokenOf] at hc
  rcases List.mem_append.mp hc with h | h
  · exact (natDigits_no_special _ c h).2.1
  · rcases List.mem_cons.mp h with rfl | h
    · decide
    · exact (natDigits_no_special _ c h).2.1

theorem tokenOf_no_space (p : Nat × Nat) : ∀ c ∈ tokenOf p, c ≠ ' ' := by
  intro c hc
  rw [tokenOf] at hc
  rcases List.mem_append.mp hc with h | h
  · exact (natDigits_no_special _ c h).2.2
  · rcases List.mem_cons.mp h with rfl | h
    · decide
    · exact (natDigits_no_special _ c h).2.2

theorem tokenOf_ne_nil (p : Nat × Nat) : tokenOf p ≠ [] := by
  rw [tokenOf]
  simp

theorem splitOn_no_sep {c : Char} {a : List Char} (h : ∀ x ∈ a, x ≠ c) :
    a.splitOn c = [a] :=
  List.splitOnP_eq_single _ _ (fun x hx => by simpa using h x hx)

theorem splitOn_append_sep {c : Char} {a b : List Char} (h : ∀ x ∈ a, x ≠ c) :
    (a ++ c :: b).splitOn c = a :: b.splitOn c := by
  simp only [List.splitOn]
  apply List.splitOnP_first
  · intro x hx
    simpa using h x hx
  · simp

theorem splitOn_cons_ne {c x : Char} (hx : x ≠ c) (l : List Char) :
    (x :: l).splitOn c = (l.splitOn c).modifyHead (x :: ·) := by
  rw [List.splitOn, List.splitOnP_cons]
  simp [hx]
  rfl

theorem splitOn_ne_nil (c : Char) (l : List Char) : l.splitOn c ≠ [] :=
  List.splitOnP_ne_nil _ l

theorem dropWhile_space_eq_self {l : List Char} (h : ∀ x ∈ l, x ≠ ' ') :
    l.dropWhile (fun ch => ch = ' ') = l := by
  cases l with
  | nil => rfl
  | cons x xs =>
    rw [List.dropWhile_cons]
    simp [h x (by simp)]

theorem stripSpaces_no_space {l : List Char} (h : ∀ x ∈ l, x ≠ ' ') :
    stripSpaces l = l := by
  rw [stripSpaces, dropWhile_space_eq_self h,
    dropWhile_space_eq_self (fun x hx => h x (List.mem_reverse.mp hx)),
    List.reverse_reverse]

theorem stripSpaces_cons_space (l : List Char) :
    stripSpaces (' ' :: l) = stripSpaces l := by
  rw [stripSpaces, stripSpaces, List.dropWhile_cons]
  simp

theorem parseToken_tokenOf (p : Nat × Nat) : parseToken (tokenOf p) = .ok p := by
  rw [parseToken, tokenOf,
    splitOn_append_sep (fun x hx => (natDigits_no_special _ x hx).1),
    splitOn_no_sep (fun x hx => (natDigits_no_special _ x hx).1)]
  simp [parseNatChars_natDigits]

theorem parseChunks_token_cons (p : Nat × Nat) (cs : List (List Char)) :
    parseChunks (tokenOf p :: cs) =
      match parseChunks cs with
      | .ok r => .ok (p :: r)
      | .error e => .error e := by
  have hs : stripSpaces (tokenOf p) = tokenOf p :=
    stripSpaces_no_space (tokenOf_no_space p)
  have hne : (tokenOf p).isEmpty = false := by
    simp [tokenOf]
  rcases h : parseChunks cs with e | r <;>
    simp [parseChunks, hs, hne, parseToken_tokenOf, h]

theorem parseChunks_modifyHead_space (cs : List (List Char)) (hcs : cs ≠ []) :
    parseChunks (cs.modifyHead (' ' :: ·)) = parseChunks cs := by
  rcases cs with _ | ⟨h, t⟩
  · exact absurd rfl hcs
  · show parseChunks ((' ' :: h) :: t) = parseChunks (h :: t)
    simp only [parseChunks, stripSpaces_cons_space]

theorem renderIntervals_nil : renderIntervals [] = [] := rfl

theorem renderIntervals_single (p : Nat × Nat) : renderIntervals [p] = tokenOf p := by
  simp [renderIntervals, List.intercalate]

theorem renderIntervals_cons_cons (p q : Nat × Nat) (t : List (Nat × Nat)) :
    renderIntervals (p :: q :: t) =
      tokenOf p ++ ',' :: ' ' :: renderIntervals (q :: t) := by
  simp [renderIntervals, List.intercalate]

theorem render_ne_nil {l : List (Nat × Nat)} (h : l ≠ []) :
    renderIntervals l ≠ [] := by
  rcases l with _ | ⟨p, rest⟩
  · exact absurd rfl h
  rcases rest with _ | ⟨q, t⟩
  · rw [renderIntervals_single]
    exact tokenOf_ne_nil p
  · rw [renderIntervals_cons_cons]
    simp

theorem parse_render : ∀ (l : List (Nat × Nat)), l ≠ [] →
    parseChunks ((renderIntervals l).splitOn ',') = .ok l := by
  intro l
  induction l with
  | nil => intro h; exact absurd rfl h
  | cons p rest ih =>
    intro _
    rcases rest with _ | ⟨q, t⟩
    · rw [renderIntervals_single, splitOn_no_sep (tokenOf_no_comma p),
        parseChunks_token_cons]
      rfl
    · rw [renderIntervals_cons_cons, splitOn_append_sep (tokenOf_no_comma p),
        parseChunks_token_cons,
        splitOn_cons_ne (by decide) (renderIntervals (q :: t)),
        parseChunks_modifyHead_space _ (splitOn_ne_nil _ _),
        ih (by simp)]

theorem contains_false_of_not_mem {l : List Char} {c : Char}
    (h : ∀ x ∈ l, x ≠ c) : l.contains c = false := by
  rw [← Bool.not_eq_true, List.contains_iff_exists_mem_beq]
  rintro ⟨b, hb, hbc⟩
  have hcb : c = b := by simpa using hbc
  exact h b hb hcb.symm

theorem contains_true_of_mem {l : List Char} {c : Char} (h : c ∈ l) :
    l.contains c = true := by
  rw [List.contains_iff_exists_mem_beq]
  exact ⟨c, h, by simp⟩

theorem from_str_render {l : List (Nat × Nat)} (hl : l ≠ []) (dl : Option Nat) :
    ArrayIntervall_from_str (renderIntervals l) dl =
      .ok (setIntervals (zeros dl) l) := by
  have hne : renderIntervals l ≠ [] := render_ne_nil hl
  have hnE : ¬((renderIntervals l).isEmpty = true) := by
    simpa [List.isEmpty_iff] using hne
  rw [ArrayIntervall_from_str, if_neg hnE]
  rcases l with _ | ⟨p, rest⟩
  · exact absurd rfl hl
  rcases rest with _ | ⟨q, t⟩
  · have hnc := contains_false_of_not_mem (tokenOf_no_comma p)
    rw [renderIntervals_single, hnc]
    have hparse : cy_str_to_intervalls (tokenOf p ++ [',']) = .ok [p] := by
      rw [cy_str_to_intervalls,
        show (tokenOf p ++ [',']) = tokenOf p ++ ',' :: [] from rfl,
        splitOn_append_sep (tokenOf_no_comma p), parseChunks_token_cons]
      rfl
    simp only [Bool.false_eq_true, if_false, add_intervals_from_str, hparse]
    rfl
  · have hcm : (renderIntervals (p :: q :: t)).contains ',' = true :=
      contains_true_of_mem (by rw [renderIntervals_cons_cons]; simp)
    rw [hcm]
    have hparse : cy_str_to_intervalls (renderIntervals (p :: q :: t)) =
        .ok (p :: q :: t) := by
      rw [cy_str_to_intervalls]
      exact parse_render _ (by simp)
    simp only [if_true, add_intervals_from_str, hparse]
    rfl

theorem normalize_nil : _normalize [] = [] := by
  rw [_normalize, sortDrop]
  simp [mergeAdj_nil]

theorem normalized_intervals_normalize (m : ArrayIntervall) :
    _normalize (normalized_intervals m) = _normalize m._intervals := by
  rw [normalized_intervals, touch]
  split
  · rfl
  · exact normalize_idem _

/-- C3: for every mask `m` (any shape, any interval contents), parsing the
textual form back yields the same mask: `from_str (to_text m) m.shape`
succeeds, keeps the shape, and is equal to `m` up to normalized interval-set
equality; the empty string round-trips to the all-false mask. -/
theorem C3_text_roundtrip (m : ArrayIntervall) :
    ∃ m2, ArrayIntervall_from_str (_intervals_as_str m) m.shape = .ok m2 ∧
      m2.shape = m.shape ∧
      _normalize m2._intervals = _normalize m._intervals ∧
      (_intervals_as_str m = [] → m2._intervals = []) := by
  by_cases h : normalized_intervals m = []
  · refine ⟨zeros m.shape, ?_, rfl, ?_, fun _ => rfl⟩
    · rw [_intervals_as_str, h, renderIntervals_nil]
      rfl
    · show _normalize [] = _normalize m._intervals
      rw [normalize_nil, ← normalized_intervals_normalize m, h, normalize_nil]
  · refine ⟨setIntervals (zeros m.shape) (normalized_intervals m), ?_, rfl, ?_, ?_⟩
    · rw [_intervals_as_str]
      exact from_str_render h m.shape
    · show _normalize (normalized_intervals m) = _normalize m._intervals
      exact normalized_intervals_normalize m
    · intro habs
      rw [_intervals_as_str] at habs
      exact absurd habs (render_ne_nil h)

/-- Witness for C3 at a concrete mask. -/
theorem C3_text_roundtrip_witness :
    ∃ m2, ArrayIntervall_from_str
        (_intervals_as_str (setIntervals (zeros (some 9)) [(1, 3), (5, 6)]))
        (setIntervals (zeros (some 9)) [(1, 3), (5, 6)]).shape = .ok m2 ∧
      m2.shape = (setIntervals (zeros (some 9)) [(1, 3), (5, 6)]).shape ∧
      _normalize m2._intervals =
        _normalize (setIntervals (zeros (some 9)) [(1, 3), (5, 6)])._intervals ∧
      (_intervals_as_str (setIntervals (zeros (some 9)) [(1, 3), (5, 6)]) = [] →
        m2._intervals = []) :=
  C3_text_roundtrip (setIntervals (zeros (some 9)) [(1, 3), (5, 6)])

/-- C4: for every non-empty dense boolean sequence `d`, constructing a mask
from it and reading the full range back reproduces `d` exactly — the
rising/falling edge detection loses no information. -/
theorem C4_dense_roundtrip {d : List Bool} (hne : d ≠ []) :
    ∃ m, fromDense d = .ok m ∧
      getitemM (.sl (some 0) (some d.length) none) m = (.ok d, touch m) := by
  rcases hfd : fromDense d with er | m
  · rw [fromDense] at hfd
    rw [if_neg (by simpa [List.isEmpty_iff] using hne)] at hfd
    cases hfd
  refine ⟨m, rfl, ?_⟩
  have hp : cy_parse_item (.sl (some 0) (some d.length) none) m.shape =
      .ok (0, d.length) := by
    rw [cy_parse_item]
    simp
  rw [getitemM_ok hp]
  congr 1
  congr 1
  have hlen : d.length = d.length - 0 := rfl
  rw [← hlen]
  symm
  refine list_eq_range_map rfl _ (fun j hj => ?_)
  rw [fromDense_coveredB hfd (0 + j)]
  simp

/-- Witness for C4 at the dense sequence `[true, false]`. -/
theorem C4_dense_roundtrip_witness :
    ∃ m, fromDense [true, false] = .ok m ∧
      getitemM (.sl (some 0) (some ([true, false] : List Bool).length) none) m =
        (.ok [true, false], touch m) :=
  C4_dense_roundtrip (by decide)

/-- C5: `union` fails with ShapeMismatch iff the domain lengths differ; on
equal shapes it returns a fresh mask carrying the concatenation of both raw
interval lists with normalization deferred (flag cleared) and the same
shape. -/
theorem C5_union_shape (a b : ArrayIntervall) :
    ((∃ m2, unionE a b = .ok m2) ↔ a.shape = b.shape) ∧
    (a.shape = b.shape →
      unionE a b = .ok (setIntervals (zeros a.shape) (a._intervals ++ b._intervals))) ∧
    (a.shape ≠ b.shape → unionE a b = .error (.shapeMismatch a.shape b.shape)) ∧
    (∀ m2, unionE a b = .ok m2 →
      m2.shape = a.shape ∧ m2._intervals = a._intervals ++ b._intervals ∧
        m2._intervals_normalized = false) := by
  by_cases h : b.shape = a.shape
  · refine ⟨⟨fun _ => h.symm, fun _ => ⟨_, by rw [unionE, if_pos h]⟩⟩,
      fun _ => by rw [unionE, if_pos h],
      fun hne => absurd h.symm hne, ?_⟩
    intro m2 hm2
    rw [unionE, if_pos h] at hm2
    injection hm2 with hm2
    subst hm2
    exact ⟨rfl, rfl, rfl⟩
  · refine ⟨⟨?_, fun he => absurd he.symm h⟩,
      fun he => absurd he.symm h,
      fun _ => by rw [unionE, if_neg h], ?_⟩
    · rintro ⟨m2, hm2⟩
      rw [unionE, if_neg h] at hm2
      cases hm2
    · intro m2 hm2
      rw [unionE, if_neg h] at hm2
      cases hm2

/-- Witness for C5: a successful and a failing union at concrete masks. -/
theorem C5_union_shape_witness :
    unionE (zeros (some 3)) (setIntervals (zeros (some 3)) [(0, 1)]) =
      .ok (setIntervals (zeros (some 3))
        ((zeros (some 3))._intervals ++ (setIntervals (zeros (some 3)) [(0, 1)])._intervals)) ∧
    unionE (zeros (some 3)) (zeros (some 4)) =
      .error (.shapeMismatch (some 3) (some 4)) :=
  ⟨(C5_union_shape _ _).2.1 rfl, (C5_union_shape _ _).2.2.1 (by decide)⟩

/-- C8: `len` fails with UnknownDomainLength exactly when the mask was
constructed without a domain length, and returns the domain length
otherwise. -/
theorem C8_len (m : ArrayIntervall) :
    (m.shape = none → lenE m = .error .unknownDomainLength) ∧
    (∀ n, m.shape = some n → lenE m = .ok n) := by
  constructor
  · intro h
    rw [lenE, h]
  · intro n h
    rw [lenE, h]

/-- Witness for C8 at concrete masks with unknown and known length. -/
theorem C8_len_witness :
    lenE (zeros none) = .error Err.unknownDomainLength ∧
      lenE (zeros (some 7)) = .ok 7 :=
  ⟨(C8_len (zeros none)).1 rfl, (C8_len (zeros (some 7))).2 7 rfl⟩

/-- C10: the dense constructor inspects the first and last element, so the
empty sequence fails (with the element-access error) instead of producing an
empty mask of domain length 0. -/
theorem C10_empty_dense_fails :
    fromDense ([] : List Bool) = .error .indexError ∧
    ∀ m, fromDense ([] : List Bool) ≠ .ok m := by
  refine ⟨rfl, fun m h => ?_⟩
  rw [fromDense] at h
  simp at h

/-- Witness for C10: the empty input does not produce the empty mask of
domain length 0. -/
theorem C10_empty_dense_fails_witness :
    fromDense ([] : List Bool) ≠ .ok (zeros (some 0)) :=
  C10_empty_dense_fails.2 (zeros (some 0))

theorem denseOf_intersection_eq_map (L : List (Nat × Nat)) (s e : Nat) :
    denseOf s e (cy_intersection (s, e) L) =
      (List.range (e - s)).map (fun j => coveredB (s + j) L) :=
  list_eq_range_map (denseOf_length s e _) _
    (fun j hj => denseOf_intersection_getD L s e j hj)

theorem touch_shape (m : ArrayIntervall) : (touch m).shape = m.shape := by
  rw [touch]
  split <;> rfl

theorem touch_flag (m : ArrayIntervall) : (touch m)._intervals_normalized = true := by
  rw [touch]
  split
  · assumption
  · rfl

theorem normalized_intervals_touch (m : ArrayIntervall) :
    normalized_intervals (touch m) = normalized_intervals m := by
  rw [normalized_intervals, normalized_intervals, touch]
  split
  · rfl
  · exact absurd (touch_flag m) (by assumption)

/-- C6: normalization is purely a caching optimization.  Reading through the
normalized list produces the same dense buffer as through the raw list;
normalization is idempotent; coverage-equal raw lists normalize to the same
canonical list (hence the same text/repr) and produce the same reads;
mutations (range-clear, raw append) commute with normalization up to
coverage; and triggering the cache (`touch`) changes no observable of a
mask. -/
theorem C6_normalization_observable (l l1 l2 : List (Nat × Nat))
    (m : ArrayIntervall) :
    (∀ s e, denseOf s e (cy_intersection (s, e) (_normalize l)) =
      denseOf s e (cy_intersection (s, e) l)) ∧
    _normalize (_normalize l) = _normalize l ∧
    ((∀ i, coveredB i l1 = coveredB i l2) →
      _normalize l1 = _normalize l2 ∧
      ∀ s e, denseOf s e (cy_intersection (s, e) l1) =
        denseOf s e (cy_intersection (s, e) l2)) ∧
    (∀ q i, coveredB i (cy_non_intersection q (_normalize l)) =
      coveredB i (cy_non_intersection q l)) ∧
    (∀ X i, coveredB i (_normalize l ++ X) = coveredB i (l ++ X)) ∧
    (∀ it, (getitemM it (touch m)).1 = (getitemM it m).1) ∧
    _intervals_as_str (touch m) = _intervals_as_str m ∧
    reprChars (touch m) = reprChars m := by
  have hget : ∀ (lA lB : List (Nat × Nat)), (∀ i, coveredB i lA = coveredB i lB) →
      ∀ s e, denseOf s e (cy_intersection (s, e) lA) =
        denseOf s e (cy_intersection (s, e) lB) := by
    intro lA lB hcov s e
    rw [denseOf_intersection_eq_map, denseOf_intersection_eq_map]
    exact List.map_congr_left (fun j _ => hcov (s + j))
  refine ⟨hget _ _ (coveredB_normalize l), normalize_idem l,
    fun hcov => ⟨normalize_eq_of_coveredB hcov, hget _ _ hcov⟩,
    fun q i => ?_, fun X i => ?_, fun it => ?_, ?_, ?_⟩
  · rw [coveredB_cy_non_intersection, coveredB_cy_non_intersection,
      coveredB_normalize]
  · rw [coveredB_append, coveredB_append, coveredB_normalize]
  · rcases hp : cy_parse_item it m.shape with er | ⟨s, e⟩
    · have hp2 : cy_parse_item it (touch m).shape = .error er := by
        rw [touch_shape, hp]
      rw [getitemM, getitemM, hp, hp2]
    · have hp2 : cy_parse_item it (touch m).shape = .ok (s, e) := by
        rw [touch_shape, hp]
      rw [getitemM, getitemM, hp, hp2]
      simp only
      rw [normalized_intervals_touch]
  · rw [_intervals_as_str, _intervals_as_str, normalized_intervals_touch]
  · rw [reprChars, reprChars, _intervals_as_str, _intervals_as_str,
      normalized_intervals_touch, touch_shape]

/-- Witness for C6's coverage-equal branch at a concrete pair of
coverage-equal lists. -/
theorem C6_normalization_observable_witness :
    _normalize [(0, 2), (1, 3)] = _normalize [(0, 3)] ∧
    ∀ s e, denseOf s e (cy_intersection (s, e) [(0, 2), (1, 3)]) =
      denseOf s e (cy_intersection (s, e) [(0, 3)]) :=
  (C6_normalization_observable [] [(0, 2), (1, 3)] [(0, 3)]
    (zeros none)).2.2.1
    (fun i => by
      rw [Bool.eq_iff_iff, coveredB_eq_true_iff, coveredB_eq_true_iff]
      constructor
      · rintro ⟨p, hp, h1, h2⟩
        fin_cases hp <;> exact ⟨(0, 3), by simp, by omega, by omega⟩
      · rintro ⟨p, hp, h1, h2⟩
        fin_cases hp
        by_cases hi : i < 2
        · exact ⟨(0, 2), by simp, by omega, by omega⟩
        · exact ⟨(1, 3), by simp, by omega, by omega⟩)

/-- C7: every failing `__setitem__` or `__getitem__` call leaves the mask
exactly as it was — in the source every `self.intervals = …` assignment is
the final action of its branch, after all checks and raises. -/
theorem C7_atomic_failure (it : Item) (v : SetValue) (m : ArrayIntervall)
    (er : Err) :
    ((setitemM it v m).1 = .error er → (setitemM it v m).2 = m) ∧
    ((getitemM it m).1 = .error er → (getitemM it m).2 = m) := by
  constructor
  · intro h
    rcases hp : cy_parse_item it m.shape with er2 | ⟨s, e⟩
    · simp [setitemM, hp]
    · rcases v with v | pat
      · by_cases h1 : v = 1
        · subst h1
          rw [setitemM_scalar_one hp] at h
          cases h
        · by_cases h0 : v = 0
          · subst h0
            rw [setitemM_scalar_zero hp] at h
            cases h
          · simp [setitemM, hp, h1, h0]
      · by_cases hl : pat.length = e - s
        · rcases hfd : fromDense pat with er3 | ai
          · simp [setitemM, hp, hl, hfd]
          · rw [setitemM_dense hp hl hfd] at h
            cases h
        · simp [setitemM, hp, hl]
  · intro h
    rcases hp : cy_parse_item it m.shape with er2 | ⟨s, e⟩
    · simp [getitemM, hp]
    · rw [getitemM, hp] at h
      cases h

/-- Witness for C7: a failing scalar assignment (invalid value 7) and a
failing unbounded read (unknown domain length) both leave the mask
untouched. -/
theorem C7_atomic_failure_witness :
    (setitemM (.sl (some 0) (some 2) none) (.scalar 7) (zeros (some 5))).2 =
      zeros (some 5) ∧
    (getitemM (.sl none none none) (zeros none)).2 = zeros none :=
  ⟨(C7_atomic_failure (.sl (some 0) (some 2) none) (.scalar 7) (zeros (some 5))
      (.valueError 7)).1 rfl,
   (C7_atomic_failure (.sl none none none) (.scalar 0) (zeros none)
      .unknownDomainLength).2 rfl⟩

/-- C9: setting an empty range `i:i` to true is a logical no-op — the
appended degenerate pair is dropped by normalization, so the normalized
interval set, the logical value at every index, and the canonical text are
all unchanged. -/
theorem C9_empty_set_noop (m : ArrayIntervall) (i : Nat) {m2 : ArrayIntervall}
    (h : setitemM (.sl (some i) (some i) none) (.scalar 1) m = (.ok (), m2)) :
    _normalize m2._intervals = _normalize m._intervals ∧
    (∀ j, coveredB j m2._intervals = coveredB j m._intervals) ∧
    _intervals_as_str m2 = renderIntervals (_normalize m._intervals) := by
  have hp : cy_parse_item (.sl (some i) (some i) none) m.shape = .ok (i, i) := by
    rw [cy_parse_item]
    simp
  rw [setitemM_scalar_one hp] at h
  injection h with _ hm2
  subst hm2
  have hfil : (m._intervals ++ [(i, i)]).filter (fun p => decide (p.1 < p.2)) =
      m._intervals.filter (fun p => decide (p.1 < p.2)) := by
    rw [List.filter_append]
    simp
  have hnorm : _normalize (m._intervals ++ [(i, i)]) = _normalize m._intervals := by
    rw [_normalize, _normalize, sortDrop_eq_of_perm_filter (List.Perm.of_eq hfil)]
  refine ⟨hnorm, fun j => ?_, ?_⟩
  · rw [coveredB_setIntervals, coveredB_append, coveredB_cons]
    have : ¬(i ≤ j ∧ j < i) := by omega
    rcases Decidable.not_and_iff_or_not.mp this with h2 | h2 <;>
      simp [h2, coveredB_nil]
  · show renderIntervals (normalized_intervals (setIntervals m (m._intervals ++ [(i, i)]))) =
      renderIntervals (_normalize m._intervals)
    rw [show normalized_intervals (setIntervals m (m._intervals ++ [(i, i)])) =
      _normalize (m._intervals ++ [(i, i)]) from rfl, hnorm]

/-- Witness for C9 at a concrete mask and empty range `3:3`. -/
theorem C9_empty_set_noop_witness :
    _normalize (setIntervals (setIntervals (zeros (some 5)) [(1, 2)])
        ([(1, 2)] ++ [(3, 3)]))._intervals =
      _normalize (setIntervals (zeros (some 5)) [(1, 2)])._intervals ∧
    (∀ j, coveredB j (setIntervals (setIntervals (zeros (some 5)) [(1, 2)])
        ([(1, 2)] ++ [(3, 3)]))._intervals =
      coveredB j (setIntervals (zeros (some 5)) [(1, 2)])._intervals) ∧
    _intervals_as_str (setIntervals (setIntervals (zeros (some 5)) [(1, 2)])
        ([(1, 2)] ++ [(3, 3)])) =
      renderIntervals (_normalize (setIntervals (zeros (some 5)) [(1, 2)])._intervals) :=
  C9_empty_set_noop (setIntervals (zeros (some 5)) [(1, 2)]) 3 rfl

end Paderbox
